import Mathlib

/-!
Verification of the Courses-Creator core processor.

Shallow embedding of the course-generation pipeline of the repository:

* `src/core-processor/src/utils/markdown_parser.py` (`MarkdownParser`)
* `src/core-processor/src/pipeline/tts_processor.py` (`TTSProcessor`)
* `src/core-processor/src/pipeline/video_assembler.py` (`VideoAssembler`)
* `src/core-processor/src/pipeline/course_generator.py` (`CourseGenerator`)
* the `JobTracker` of the specification (its implementation is not part of the
  `src/` tree; it is modelled from the specification, see below).

Strings are modelled as `List Char`.  Python's `\s` character class and
`str.strip()` are modelled over their ASCII fragment (space, tab, newline,
carriage return, vertical tab, form feed); every concrete input considered
here is ASCII.  Python's salted string `hash` is modelled as an abstract
function parameter `hash : List Char → Int`.  File-system side effects
(reading the markdown file, writing placeholder audio/video files) are not
modelled: `parse` takes the file's text directly, and the synthesis/assembly
functions return the path they would have written.
-/

namespace CoursesCreator

/-- ASCII characters of Python's `\s` class (also the characters removed by
`str.strip()` on ASCII text). -/
def isWs (c : Char) : Bool :=
  c = ' ' || c = '\t' || c = '\n' || c = '\r' || c = '\x0b' || c = '\x0c'

/-- Python `str.strip()` (no argument): remove leading and trailing
whitespace. -/
def pyStrip (cs : List Char) : List Char :=
  (((cs.dropWhile isWs).reverse).dropWhile isWs).reverse

/-- Helper for `splitLines`: prepend a character to the first chunk. -/
def consHead (c : Char) : List (List Char) → List (List Char)
  | [] => [[c]]
  | l :: ls => (c :: l) :: ls

/-- Python `content.split('\n')`.  The empty string splits to `[""]`. -/
def splitLines : List Char → List (List Char)
  | [] => [[]]
  | c :: cs => if c = '\n' then [] :: splitLines cs else consHead c (splitLines cs)

/-- Python `'\n'.join(lines)`. -/
def joinLines : List (List Char) → List Char
  | [] => []
  | [l] => l
  | l :: l' :: ls => l ++ '\n' :: joinLines (l' :: ls)

/-- `line.startswith('# ')` — the section-boundary test of
`MarkdownParser._extract_sections`. -/
def isHeaderLine (l : List Char) : Bool :=
  decide (l.take 2 = ['#', ' '])

/-- A parsed section (the dict
`{"title": ..., "content": ..., "order": ...}` built by
`MarkdownParser._extract_sections`). -/
structure Section where
  title : List Char
  content : List Char
  order : Nat
deriving DecidableEq, Repr

/-- Python truthiness of the `current_section` variable: it is `None`
initially and a (possibly empty) string afterwards; `if current_section:`
is true exactly for a non-empty string. -/
def truthy : Option (List Char) → Bool
  | none => false
  | some t => !t.isEmpty

/-- The `for line in lines:` loop of `MarkdownParser._extract_sections`,
with the loop state (`current_section`, `current_content`, `order`,
`sections`) made explicit.  The trailing flush after the loop is the base
case. -/
def extractSectionsLoop : List (List Char) → Option (List Char) → List (List Char) →
    Nat → List Section → List Section
  | [], curSec, curContent, order, acc =>
      match curSec with
      | some t =>
          if t.isEmpty then acc
          else acc ++ [⟨t, pyStrip (joinLines curContent), order⟩]
      | none => acc
  | line :: rest, curSec, curContent, order, acc =>
      if isHeaderLine line then
        match curSec with
        | some t =>
            if t.isEmpty then
              extractSectionsLoop rest (some (pyStrip (line.drop 2))) [] order acc
            else
              extractSectionsLoop rest (some (pyStrip (line.drop 2))) [] (order + 1)
                (acc ++ [⟨t, pyStrip (joinLines curContent), order⟩])
        | none => extractSectionsLoop rest (some (pyStrip (line.drop 2))) [] order acc
      else
        if truthy curSec then
          extractSectionsLoop rest curSec (curContent ++ [line]) order acc
        else
          extractSectionsLoop rest curSec curContent order acc

/-- `MarkdownParser._extract_sections`. -/
def extract_sections (content : List Char) : List Section :=
  extractSectionsLoop (splitLines content) none [] 0 []

/-! ## The header regex

`MarkdownParser.__init__` compiles `header_pattern = ^#+\s+(.+)$` with
`re.MULTILINE`; `parse` and `_extract_description` call
`header_pattern.search(content)`.  The search below reproduces Python's
leftmost-match semantics with greedy backtracking for `\s+`:

* `^` matches at the start of the string and right after every `'\n'`;
* `#+` takes the maximal run of `'#'` (backtracking cannot shorten it,
  since `\s` never matches `'#'`);
* `\s+` takes `j` whitespace characters for the largest `j ≤` (length of
  the maximal whitespace run) such that the remainder matches `(.+)$`;
* `(.+)$` succeeds exactly when the next character exists and is not
  `'\n'`; the group is then the maximal `'\n'`-free run from there. -/

/-- Backtracking for `\s+(.+)$` after the `'#'` run: try consuming `j`
whitespace characters for `j = m, m-1, …, 1` and return the `(.+)` group
of the first success. -/
def tryGroup (rest : List Char) : Nat → Option (List Char)
  | 0 => none
  | j + 1 =>
      match rest.drop (j + 1) with
      | c :: q => if c ≠ '\n' then some (c :: q.takeWhile (· ≠ '\n')) else tryGroup rest j
      | [] => tryGroup rest j

/-- Match `#+\s+(.+)$` anchored at the head of `cs`; returns the `(.+)`
group on success. -/
def matchHeaderAt (cs : List Char) : Option (List Char) :=
  let n := (cs.takeWhile (· = '#')).length
  if n = 0 then none
  else
    let rest := cs.drop n
    let m := (rest.takeWhile isWs).length
    if m = 0 then none else tryGroup rest m

/-- Does the prefix `p` end at a line start (empty, or ends with `'\n'`)?
This is where `^` may match in `re.MULTILINE` mode. -/
def atLineStart (p : List Char) : Bool :=
  match p.getLast? with
  | none => true
  | some c => c = '\n'

/-- Scan of `header_pattern.search`: walk the string left to right, trying
the anchored match at every line start.  `p` is the consumed prefix, the
`Bool` flag records whether the current position is a line start.  On
success returns the prefix before the match and the `(.+)` group. -/
def findHeaderAux : List Char → List Char → Bool → Option (List Char × List Char)
  | _, [], _ => none
  | p, c :: cs, atStart =>
      if atStart then
        match matchHeaderAt (c :: cs) with
        | some g => some (p, g)
        | none => findHeaderAux (p ++ [c]) cs (c = '\n')
      else findHeaderAux (p ++ [c]) cs (c = '\n')

/-- `header_pattern.search(content)`: the prefix before the leftmost match
(`content[:m.start()]`) and the first capture group (`m.group(1)`). -/
def findHeader (content : List Char) : Option (List Char × List Char) :=
  findHeaderAux [] content true

/-- The default title of `MarkdownParser.parse`. -/
def defaultTitle : List Char := "Untitled Course".toList

/-- Title extraction in `MarkdownParser.parse`:
`title_match.group(1).strip() if title_match else "Untitled Course"`. -/
def parseTitle (content : List Char) : List Char :=
  match findHeader content with
  | some (_, g) => pyStrip g
  | none => defaultTitle

/-- `MarkdownParser._extract_description`:
`content[:first_header.start()].strip()` when the pattern matches, `""`
otherwise. -/
def extract_description (content : List Char) : List Char :=
  match findHeader content with
  | some (pre, _) => pyStrip pre
  | none => []

/-- `MarkdownParser._extract_metadata` returns fixed defaults. -/
structure CourseMetadata where
  author : List Char
  language : List Char
  tags : List (List Char)
deriving DecidableEq, Repr

def extract_metadata (_content : List Char) : CourseMetadata :=
  ⟨"Unknown".toList, "en".toList, []⟩

/-- The dict returned by `MarkdownParser.parse`. -/
structure ParseResult where
  title : List Char
  description : List Char
  sections : List Section
  metadata : CourseMetadata
deriving DecidableEq, Repr

/-- `MarkdownParser.parse` (the file's text is taken directly instead of a
path). -/
def parse (content : List Char) : ParseResult :=
  { title := parseTitle content
    description := extract_description content
    sections := extract_sections content
    metadata := extract_metadata content }

/-! ## TTS processing (`tts_processor.py`) -/

/-- The `options` dict.  Only string-valued entries are consulted by the
embedded code (`options.get("tts_type", "bark")`), so options are modelled
as an association list from string keys to string values; lookup returns
the first binding. -/
abbrev Options := List (List Char × List Char)

/-- `options.get(key)` (returning `None` when absent). -/
def lookupOpt : Options → List Char → Option (List Char)
  | [], _ => none
  | (k, v) :: rest, key => if k = key then some v else lookupOpt rest key

/-- `options.get(key, dflt)`. -/
def optGet (opts : Options) (key dflt : List Char) : List Char :=
  match lookupOpt opts key with
  | some v => v
  | none => dflt

/-- Python's `str(hash(text))` for the salted string hash, used in the
generated file names; modelled via an abstract `hash` parameter. -/
def hashStr (hash : List Char → Int) (text : List Char) : List Char :=
  (toString (hash text)).toList

/-- A raised Python exception, as a failure value.  `generate_audio`
raises `ValueError` for an unknown TTS type. -/
inductive PyError where
  | valueError (msg : List Char)
deriving DecidableEq, Repr

/-- `TTSProcessor._generate_bark_tts`: returns
`f"/tmp/bark_audio_{hash(text)}.wav"` (the placeholder file write and the
simulated delay are not modelled). -/
def generate_bark_tts (hash : List Char → Int) (text : List Char) : List Char :=
  "/tmp/bark_audio_".toList ++ hashStr hash text ++ ".wav".toList

/-- `TTSProcessor._generate_speecht5_tts`. -/
def generate_speecht5_tts (hash : List Char → Int) (text : List Char) : List Char :=
  "/tmp/speecht5_audio_".toList ++ hashStr hash text ++ ".wav".toList

/-- `TTSProcessor.generate_audio`: dispatch on
`options.get("tts_type", "bark")`, raising `ValueError` for an unknown
type. -/
def generate_audio (hash : List Char → Int) (text : List Char) (opts : Options) :
    Except PyError (List Char) :=
  let tts_type := optGet opts "tts_type".toList "bark".toList
  if tts_type = "bark".toList then Except.ok (generate_bark_tts hash text)
  else if tts_type = "speecht5".toList then Except.ok (generate_speecht5_tts hash text)
  else Except.error (PyError.valueError ("Unknown TTS type: ".toList ++ tts_type))

/-- The fixed set of synthesis backends the dispatch of `generate_audio`
chooses between (`invalid` stands for the `else: raise ValueError`
branch). -/
inductive Backend where
  | bark
  | speecht5
  | invalid
deriving DecidableEq, Repr

/-- Backend selection as a function of the options alone — the branch of
`generate_audio` taken for given `options`. -/
def selectBackend (opts : Options) : Backend :=
  let tts_type := optGet opts "tts_type".toList "bark".toList
  if tts_type = "bark".toList then Backend.bark
  else if tts_type = "speecht5".toList then Backend.speecht5
  else Backend.invalid

/-- Running a chosen backend: the body of the branch of `generate_audio`
selected by `selectBackend`. -/
def runBackend (hash : List Char → Int) (text : List Char) (opts : Options) :
    Backend → Except PyError (List Char)
  | Backend.bark => Except.ok (generate_bark_tts hash text)
  | Backend.speecht5 => Except.ok (generate_speecht5_tts hash text)
  | Backend.invalid =>
      Except.error (PyError.valueError
        ("Unknown TTS type: ".toList ++ optGet opts "tts_type".toList "bark".toList))

/-! ## Video assembly (`video_assembler.py`) -/

/-- `VideoAssembler.create_video`: the returned path is
`Path(output_dir) / f"video_{hash(text_content)}.mp4"` (modelled as a
POSIX join with `'/'`; the placeholder file write and the simulated delay
are not modelled; `audio_path` does not influence the returned path). -/
def create_video (hash : List Char → Int) (_audio_path text_content output_dir : List Char) :
    List Char :=
  output_dir ++ "/video_".toList ++ hashStr hash text_content ++ ".mp4".toList

/-! ## Data model (`models/course.py`) -/

/-- `Subtitle` dataclass.  `timestamps: List[Dict[str, Any]]` is modelled
as an association list of string keys and values (never populated by the
pipeline). -/
structure Subtitle where
  language : List Char
  content : List Char
  timestamps : List (List (List Char × List Char))
deriving DecidableEq, Repr

/-- `InteractiveElement` dataclass. -/
structure InteractiveElement where
  id : List Char
  type : List Char
  content : List Char
  position : Nat
deriving DecidableEq, Repr

/-- `Lesson` dataclass. -/
structure Lesson where
  id : List Char
  title : List Char
  content : List Char
  video_url : Option (List Char)
  audio_url : Option (List Char)
  subtitles : List Subtitle
  interactive_elements : List InteractiveElement
  duration : Int
  order : Nat
deriving DecidableEq, Repr

/-- `Course` dataclass (the `created_at`/`updated_at` timestamps, always
`None` in the pipeline, are not modelled). -/
structure Course where
  id : List Char
  title : List Char
  description : List Char
  lessons : List Lesson
  metadata : CourseMetadata
deriving DecidableEq, Repr

/-! ## Course generation (`course_generator.py`) -/

/-- `CourseGenerator._generate_lesson`: synthesize audio for the section's
content, create the video, and populate a `Lesson`.  A `ValueError`
raised by `generate_audio` propagates. -/
def generate_lesson (hash : List Char → Int) (s : Section) (output_dir : List Char)
    (opts : Options) : Except PyError Lesson :=
  match generate_audio hash s.content opts with
  | Except.error e => Except.error e
  | Except.ok audio_path =>
      let video_path := create_video hash audio_path s.content output_dir
      Except.ok
        { id := "lesson_".toList ++ hashStr hash s.content
          title := s.title
          content := s.content
          video_url := some video_path
          audio_url := some audio_path
          subtitles := []
          interactive_elements := []
          duration := 0
          order := s.order }

/-- The `for section in course_data.get("sections", []):` loop of
`CourseGenerator.generate_course`: lessons are generated sequentially
(each `await`ed before the next starts) and appended in section order. -/
def generateLessons (hash : List Char → Int) (secs : List Section) (output_dir : List Char)
    (opts : Options) : Except PyError (List Lesson) :=
  match secs with
  | [] => Except.ok []
  | s :: rest =>
      match generate_lesson hash s output_dir opts with
      | Except.error e => Except.error e
      | Except.ok l =>
          match generateLessons hash rest output_dir opts with
          | Except.error e => Except.error e
          | Except.ok ls => Except.ok (l :: ls)

/-- `CourseGenerator.generate_course`: parse the document, build one
lesson per section, and assemble the `Course` (`stem` is
`Path(markdown_path).stem`; `_assemble_course` is a `pass` placeholder). -/
def generate_course (hash : List Char → Int) (content stem output_dir : List Char)
    (opts : Options) : Except PyError Course :=
  let course_data := parse content
  match generateLessons hash course_data.sections output_dir opts with
  | Except.error e => Except.error e
  | Except.ok lessons =>
      Except.ok
        { id := "course_".toList ++ stem
          title := course_data.title
          description := course_data.description
          lessons := lessons
          metadata := course_data.metadata }

/-! ## Job tracking

Modelled from the spec: the `JobTracker` implementation is not under
`src/` (only HTTP test clients polling job status exist there).  §4.6 of
the specification: `update(jobId, progress, status)`; lookups for an
unknown job fail with `NotFoundError`; updates for a job already in a
terminal state are rejected with `InvalidTransitionError` rather than
silently applied. -/

/-- Job lifecycle states (§3/§4.5 of the specification). -/
inductive JobStatus where
  | queued
  | running
  | completed
  | failed
deriving DecidableEq, Repr

/-- Terminal job states. -/
def JobStatus.isTerminal : JobStatus → Bool
  | JobStatus.completed => true
  | JobStatus.failed => true
  | _ => false

/-- Modelled from the spec: the `Job` record of §3. -/
structure Job where
  id : List Char
  status : JobStatus
  progress : Nat
  courseRef : Option (List Char)
  error : Option (List Char)
deriving DecidableEq, Repr

/-- `JobTracker` failures (§4.6). -/
inductive TrackerError where
  | notFound
  | invalidTransition
deriving DecidableEq, Repr

/-- The tracker's store: jobs keyed by id. -/
abbrev Tracker := List (List Char × Job)

/-- Lookup of a stored job by id. -/
def trackerGet : Tracker → List Char → Option Job
  | [], _ => none
  | (k, j) :: rest, jobId => if k = jobId then some j else trackerGet rest jobId

/-- Replace the binding of `jobId` by `j'`. -/
def trackerSet : Tracker → List Char → Job → Tracker
  | [], _, _ => []
  | (k, j) :: rest, jobId, j' =>
      if k = jobId then (k, j') :: rest else (k, j) :: trackerSet rest jobId j'

/-- Modelled from the spec: `JobTracker.update(jobId, progress, status)`
(§4.6).  Unknown ids fail with `NotFoundError`; a job already in a
terminal state is left unchanged and the update fails with
`InvalidTransitionError`; otherwise the stored job's progress and status
are replaced and the new store is returned. -/
def JobTracker.update (tr : Tracker) (jobId : List Char) (progress : Nat)
    (status : JobStatus) : Except TrackerError Tracker :=
  match trackerGet tr jobId with
  | none => Except.error TrackerError.notFound
  | some job =>
      if job.status.isTerminal then Except.error TrackerError.invalidTransition
      else Except.ok (trackerSet tr jobId { job with progress := progress, status := status })

/-! ## Basic lemmas: stripping, filtering, line splitting -/

theorem pyStrip_eq_rdropWhile (cs : List Char) :
    pyStrip cs = List.rdropWhile isWs (List.dropWhile isWs cs) := rfl

theorem dropWhile_head_false {α : Type} {p : α → Bool} {l : List α} {c : α} {t : List α}
    (h : List.dropWhile p l = c :: t) : p c = false := by
  induction l with
  | nil => simp [List.dropWhile] at h
  | cons a l ih =>
      rw [List.dropWhile_cons] at h
      by_cases hp : p a
      · rw [if_pos hp] at h; exact ih h
      · rw [if_neg hp] at h
        cases h
        simpa using hp

theorem pyStrip_idem (cs : List Char) : pyStrip (pyStrip cs) = pyStrip cs := by
  rw [pyStrip_eq_rdropWhile, pyStrip_eq_rdropWhile]
  have h1 : List.dropWhile isWs (List.rdropWhile isWs (List.dropWhile isWs cs))
      = List.rdropWhile isWs (List.dropWhile isWs cs) := by
    cases hr : List.rdropWhile isWs (List.dropWhile isWs cs) with
    | nil => simp
    | cons c t =>
        obtain ⟨u, hu⟩ := List.rdropWhile_prefix isWs (List.dropWhile isWs cs)
        rw [hr] at hu
        have hd : List.dropWhile isWs cs = c :: (t ++ u) := by
          rw [← hu]; simp
        have hc := dropWhile_head_false hd
        rw [List.dropWhile_cons, hc]
        simp
  rw [h1, List.rdropWhile_idempotent]

/-- Characters compared by the round-trip property: everything except
whitespace and the `'#'` header markers. -/
def keepChar (c : Char) : Bool := !isWs c && !(c = '#')

/-- The `keepChar` characters of a string, in order. -/
def visibleChars (cs : List Char) : List Char := cs.filter keepChar

theorem visibleChars_append (a b : List Char) :
    visibleChars (a ++ b) = visibleChars a ++ visibleChars b :=
  List.filter_append ..

theorem visibleChars_ws_cons {c : Char} (h : isWs c = true) (l : List Char) :
    visibleChars (c :: l) = visibleChars l := by
  simp [visibleChars, List.filter_cons, keepChar, h]

theorem visibleChars_dropWhile (l : List Char) :
    visibleChars (List.dropWhile isWs l) = visibleChars l := by
  induction l with
  | nil => rfl
  | cons c t ih =>
      by_cases h : isWs c
      · rw [List.dropWhile_cons, if_pos h, ih, visibleChars_ws_cons h]
      · rw [List.dropWhile_cons, if_neg h]

theorem visibleChars_reverse (l : List Char) :
    visibleChars l.reverse = (visibleChars l).reverse := by
  induction l with
  | nil => rfl
  | cons c t ih =>
      rw [List.reverse_cons, visibleChars_append, ih]
      by_cases h : keepChar c
      · simp [visibleChars, List.filter_cons, h]
      · simp only [Bool.not_eq_true] at h
        simp [visibleChars, List.filter_cons, h]

theorem visibleChars_pyStrip (cs : List Char) :
    visibleChars (pyStrip cs) = visibleChars cs := by
  show visibleChars (((cs.dropWhile isWs).reverse.dropWhile isWs).reverse) = _
  rw [visibleChars_reverse, visibleChars_dropWhile, visibleChars_reverse,
    List.reverse_reverse, visibleChars_dropWhile]

theorem splitLines_ne_nil (cs : List Char) : splitLines cs ≠ [] := by
  cases cs with
  | nil => simp [splitLines]
  | cons c t =>
      simp only [splitLines]
      split
      · simp
      · cases h : splitLines t <;> simp [consHead]

theorem joinLines_cons_ne_nil (l : List Char) (L : List (List Char)) (h : L ≠ []) :
    joinLines (l :: L) = l ++ '\n' :: joinLines L := by
  cases L with
  | nil => exact absurd rfl h
  | cons l' ls => rfl

theorem joinLines_splitLines (cs : List Char) : joinLines (splitLines cs) = cs := by
  induction cs with
  | nil => rfl
  | cons c t ih =>
      by_cases h : c = '\n'
      · subst h
        simp only [splitLines, if_true, eq_self_iff_true]
        rw [joinLines_cons_ne_nil _ _ (splitLines_ne_nil t), ih]
        simp
      · simp only [splitLines, if_neg h]
        cases hs : splitLines t with
        | nil => exact absurd hs (splitLines_ne_nil t)
        | cons l ls =>
            rw [hs] at ih
            cases ls with
            | nil =>
                simp only [consHead, joinLines] at ih ⊢
                rw [ih]
            | cons l' ls' =>
                simp only [consHead, joinLines] at ih ⊢
                rw [List.cons_append, ih]

theorem splitLines_no_newline (cs : List Char) : ∀ l ∈ splitLines cs, '\n' ∉ l := by
  induction cs with
  | nil =>
      intro l hl
      simp only [splitLines, List.mem_singleton] at hl
      subst hl; simp
  | cons c t ih =>
      intro l hl
      simp only [splitLines] at hl
      by_cases h : c = '\n'
      · rw [if_pos h] at hl
        rcases List.mem_cons.mp hl with h1 | h1
        · subst h1; simp
        · exact ih l h1
      · rw [if_neg h] at hl
        cases hs : splitLines t with
        | nil => exact absurd hs (splitLines_ne_nil t)
        | cons l0 ls =>
            rw [hs] at hl
            simp only [consHead] at hl
            rcases List.mem_cons.mp hl with h1 | h1
            · subst h1
              intro hmem
              rcases List.mem_cons.mp hmem with h2 | h2
              · exact h h2.symm
              · exact ih l0 (hs ▸ List.mem_cons_self _ _) h2
            · exact ih l (hs ▸ List.mem_cons_of_mem _ h1)

/-- `P` rendered as a prefix of a document: each line followed by the
`'\n'` that separated it from the rest. -/
def linesPre : List (List Char) → List Char
  | [] => []
  | l :: ls => l ++ '\n' :: linesPre ls

theorem joinLines_append (P Q : List (List Char)) (h : Q ≠ []) :
    joinLines (P ++ Q) = linesPre P ++ joinLines Q := by
  induction P with
  | nil => rfl
  | cons l P ih =>
      have hne : P ++ Q ≠ [] := by
        cases P <;> simp [h]
      rw [List.cons_append, joinLines_cons_ne_nil _ _ hne, ih, linesPre]
      simp

theorem visibleChars_joinLines (L : List (List Char)) :
    visibleChars (joinLines L) = (L.map visibleChars).flatten := by
  induction L with
  | nil => rfl
  | cons l ls ih =>
      cases ls with
      | nil => simp [joinLines, List.map, List.flatten]
      | cons l' ls' =>
          rw [joinLines_cons_ne_nil _ _ (by simp), visibleChars_append,
            visibleChars_ws_cons (by decide), ih]
          simp [List.map, List.flatten]

theorem visibleChars_linesPre (L : List (List Char)) :
    visibleChars (linesPre L) = (L.map visibleChars).flatten := by
  induction L with
  | nil => rfl
  | cons l ls ih =>
      rw [linesPre, visibleChars_append, visibleChars_ws_cons (by decide), ih]
      simp [List.map, List.flatten]

/-! ## Lemmas about the header regex -/

theorem takeWhile_append_of_dropWhile_ne_nil {α : Type} {p : α → Bool} {a : List α}
    (h : List.dropWhile p a ≠ []) (b : List α) :
    List.takeWhile p (a ++ b) = List.takeWhile p a := by
  induction a with
  | nil => simp [List.dropWhile] at h
  | cons c t ih =>
      rw [List.dropWhile_cons] at h
      by_cases hp : p c
      · rw [if_pos hp] at h
        rw [List.cons_append, List.takeWhile_cons, List.takeWhile_cons, if_pos hp, if_pos hp,
          ih h]
      · rw [List.cons_append, List.takeWhile_cons, List.takeWhile_cons, if_neg hp, if_neg hp]

theorem dropWhile_append_of_dropWhile_ne_nil {α : Type} {p : α → Bool} {a : List α}
    (h : List.dropWhile p a ≠ []) (b : List α) :
    List.dropWhile p (a ++ b) = List.dropWhile p a ++ b := by
  induction a with
  | nil => simp [List.dropWhile] at h
  | cons c t ih =>
      rw [List.dropWhile_cons] at h
      by_cases hp : p c
      · rw [if_pos hp] at h
        rw [List.cons_append, List.dropWhile_cons, List.dropWhile_cons, if_pos hp, if_pos hp,
          ih h]
      · rw [List.cons_append, List.dropWhile_cons, List.dropWhile_cons, if_neg hp, if_neg hp]
        simp

theorem takeWhile_append_of_all {α : Type} {p : α → Bool} {a : List α}
    (h : ∀ x ∈ a, p x = true) (b : List α) :
    List.takeWhile p (a ++ b) = a ++ List.takeWhile p b := by
  induction a with
  | nil => simp
  | cons c t ih =>
      rw [List.cons_append, List.takeWhile_cons, if_pos (h c (List.mem_cons_self _ _)),
        ih fun x hx => h x (List.mem_cons_of_mem _ hx)]
      simp

theorem takeWhile_dropWhile_append {a : List Char} :
    List.takeWhile isWs a ++ List.dropWhile isWs a = a :=
  List.takeWhile_append_dropWhile ..

theorem mem_takeWhile_pred {α : Type} {p : α → Bool} {a : List α} {x : α}
    (h : x ∈ List.takeWhile p a) : p x = true := by
  induction a with
  | nil => simp [List.takeWhile] at h
  | cons c t ih =>
      rw [List.takeWhile_cons] at h
      by_cases hp : p c
      · rw [if_pos hp] at h
        rcases List.mem_cons.mp h with h1 | h1
        · exact h1 ▸ hp
        · exact ih h1

      · rw [if_neg hp] at h
        simp at h

theorem matchHeaderAt_nil : matchHeaderAt [] = none := rfl

theorem matchHeaderAt_not_hash {c : Char} (h : ¬(c = '#')) (cs : List Char) :
    matchHeaderAt (c :: cs) = none := by
  have ht : List.takeWhile (· = '#') (c :: cs) = [] := by
    simp [List.takeWhile_cons, h]
  simp [matchHeaderAt, ht]

/-- Value of the anchored match at a top-level header line `"# " ++ u`
whose title has a non-whitespace character, followed either by nothing or
by the `'\n'` that begins the next line: the group is the title with its
leading whitespace removed. -/
theorem matchHeaderAt_headerLine (u rest' : List Char) (hnl : '\n' ∉ u)
    (hne : List.dropWhile isWs u ≠ [])
    (hr : rest' = [] ∨ ∃ r, rest' = '\n' :: r) :
    matchHeaderAt ('#' :: ' ' :: (u ++ rest')) = some (List.dropWhile isWs u) := by
  have htw : List.takeWhile (· = '#') ('#' :: ' ' :: (u ++ rest')) = ['#'] := by
    rw [List.takeWhile_cons, if_pos (by simp), List.takeWhile_cons, if_neg (by simp)]
  have hdrop : ('#' :: ' ' :: (u ++ rest')).drop 1 = ' ' :: (u ++ rest') := rfl
  simp only [matchHeaderAt, htw, List.length_cons, List.length_nil, hdrop]
  rw [if_neg (by simp)]
  have htw2 : List.takeWhile isWs (' ' :: (u ++ rest')) =
      ' ' :: List.takeWhile isWs u := by
    rw [List.takeWhile_cons, if_pos (by decide), takeWhile_append_of_dropWhile_ne_nil hne]
  rw [htw2]
  simp only [List.length_cons]
  rw [if_neg (by simp)]
  set k := (List.takeWhile isWs u).length with hk
  show tryGroup (' ' :: (u ++ rest')) (k + 1) = some (List.dropWhile isWs u)
  have hdropk : (' ' :: (u ++ rest')).drop (k + 1) = List.dropWhile isWs u ++ rest' := by
    have : (u ++ rest').drop k = List.dropWhile isWs u ++ rest' := by
      conv_lhs => rw [← takeWhile_dropWhile_append (a := u), List.append_assoc]
      rw [List.drop_append_of_le_length (by simp [hk]), hk]
      simp
    simpa [List.drop_succ_cons] using this
  obtain ⟨c, q, hcq⟩ : ∃ c q, List.dropWhile isWs u = c :: q := by
    cases h : List.dropWhile isWs u with
    | nil => exact absurd h hne
    | cons c q => exact ⟨c, q, rfl⟩
  have hcw : isWs c = false := dropWhile_head_false hcq
  have hcnl : ¬(c = '\n') := by
    intro h
    subst h
    simp [isWs] at hcw
  rw [tryGroup, hdropk, hcq, List.cons_append]
  show (if c ≠ '\n' then some (c :: List.takeWhile (· ≠ '\n') (q ++ rest'))
      else tryGroup (' ' :: (u ++ rest')) k) = some (c :: q)
  rw [if_pos hcnl]
  have hrest : List.takeWhile (· ≠ '\n') (q ++ rest') = q := by
    have hqnl : ∀ x ∈ q, ¬(x = '\n') := by
      intro x hx h
      subst h
      have : '\n' ∈ List.dropWhile isWs u := by
        rw [hcq]; exact List.mem_cons_of_mem _ hx
      exact hnl (List.dropWhile_sublist isWs |>.mem this)
    rcases hr with h | ⟨r, h⟩
    · subst h
      rw [List.append_nil]
      exact List.takeWhile_eq_self_iff.mpr (by simpa using hqnl)
    · subst h
      rw [takeWhile_append_of_all (by simpa using hqnl), List.takeWhile_cons,
        if_neg (by simp)]
      simp
  rw [hrest]

/-! ## Lemmas about the regex search -/

theorem findHeaderAux_cons_true (p : List Char) (c : Char) (cs : List Char) :
    findHeaderAux p (c :: cs) true =
      match matchHeaderAt (c :: cs) with
      | some g => some (p, g)
      | none => findHeaderAux (p ++ [c]) cs (c = '\n') := by
  rw [findHeaderAux, if_pos rfl]

theorem findHeaderAux_cons_false (p : List Char) (c : Char) (cs : List Char) :
    findHeaderAux p (c :: cs) false = findHeaderAux (p ++ [c]) cs (c = '\n') := by
  rw [findHeaderAux, if_neg (by simp)]

/-- Walking over the rest of a line (no `'\n'`) with the line-start flag
off just consumes it. -/
theorem findHeaderAux_false_walk (l : List Char) (hnl : '\n' ∉ l) :
    ∀ p rest, findHeaderAux p (l ++ '\n' :: rest) false
      = findHeaderAux (p ++ l ++ ['\n']) rest true := by
  induction l with
  | nil =>
      intro p rest
      rw [List.nil_append, findHeaderAux_cons_false]
      simp
  | cons c l ih =>
      intro p rest
      have hc : ¬(c = '\n') := fun h => hnl (h ▸ List.mem_cons_self _ _)
      rw [List.cons_append, findHeaderAux_cons_false]
      have hflag : (decide (c = '\n')) = false := by simpa using hc
      rw [hflag, ih (fun h => hnl (List.mem_cons_of_mem _ h))]
      simp

/-- Walking over a whole line that contains no `'#'` (so the anchored
match at its start fails) consumes it and ends at the next line start. -/
theorem findHeaderAux_true_walk (l : List Char) (hnl : '\n' ∉ l) (hh : '#' ∉ l) :
    ∀ p rest, findHeaderAux p (l ++ '\n' :: rest) true
      = findHeaderAux (p ++ l ++ ['\n']) rest true := by
  cases l with
  | nil =>
      intro p rest
      rw [List.nil_append, findHeaderAux_cons_true,
        matchHeaderAt_not_hash (by decide) rest]
      simp
  | cons c l =>
      intro p rest
      have hc : ¬(c = '#') := fun h => hh (h ▸ List.mem_cons_self _ _)
      have hcnl : ¬(c = '\n') := fun h => hnl (h ▸ List.mem_cons_self _ _)
      rw [List.cons_append, findHeaderAux_cons_true,
        matchHeaderAt_not_hash hc (l ++ '\n' :: rest)]
      have hflag : (decide (c = '\n')) = false := by simpa using hcnl
      rw [hflag, findHeaderAux_false_walk l (fun h => hnl (List.mem_cons_of_mem _ h))]
      simp

/-- Iterating `findHeaderAux_true_walk` over a block of `'#'`-free lines. -/
theorem findHeaderAux_linesPre (P : List (List Char))
    (hP : ∀ l ∈ P, '\n' ∉ l ∧ '#' ∉ l) :
    ∀ p suffix, findHeaderAux p (linesPre P ++ suffix) true
      = findHeaderAux (p ++ linesPre P) suffix true := by
  induction P with
  | nil => intro p suffix; simp [linesPre]
  | cons l P ih =>
      intro p suffix
      have hl := hP l (List.mem_cons_self _ _)
      have e1 : linesPre (l :: P) = l ++ '\n' :: linesPre P := rfl
      rw [e1, List.append_assoc, List.cons_append,
        findHeaderAux_true_walk l hl.1 hl.2 p (linesPre P ++ suffix),
        ih (fun x hx => hP x (List.mem_cons_of_mem _ hx)) (p ++ l ++ ['\n']) suffix]
      congr 1
      simp

theorem atLineStart_append_newline (p : List Char) : atLineStart (p ++ ['\n']) = true := by
  simp [atLineStart, List.getLast?_concat]

theorem atLineStart_append_other {c : Char} (h : ¬(c = '\n')) (p : List Char) :
    atLineStart (p ++ [c]) = false := by
  simp [atLineStart, List.getLast?_concat, h]

/-- Soundness and leftmostness of the search when a match is found: `pre`
is a line-start split of the input, the anchored match succeeds there with
group `g`, and the anchored match fails at every earlier line start. -/
theorem findHeaderAux_some_correct :
    ∀ (r p : List Char) (pre g : List Char),
      findHeaderAux p r (atLineStart p) = some (pre, g) →
      p.length ≤ pre.length
      ∧ (∃ suf, p ++ r = pre ++ suf ∧ matchHeaderAt suf = some g ∧ atLineStart pre = true)
      ∧ ∀ a b, p ++ r = a ++ b → atLineStart a = true → p.length ≤ a.length →
          a.length < pre.length → matchHeaderAt b = none := by
  intro r
  induction r with
  | nil => intro p pre g h; rw [findHeaderAux] at h; exact absurd h (by simp)
  | cons c cs ih =>
      intro p pre g h
      by_cases hs : atLineStart p = true
      · rw [hs, findHeaderAux_cons_true] at h
        cases hm : matchHeaderAt (c :: cs) with
        | some g' =>
            rw [hm] at h
            cases h
            refine ⟨Nat.le_refl _, ⟨c :: cs, rfl, hm, hs⟩, ?_⟩
            intro a b hab hla hle hlt
            omega
        | none =>
            rw [hm] at h
            have hflag : decide (c = '\n') = atLineStart (p ++ [c]) := by
              by_cases hc : c = '\n'
              · subst hc; rw [atLineStart_append_newline]; simp
              · rw [atLineStart_append_other hc]; simpa using hc
            rw [hflag] at h
            obtain ⟨h1, ⟨suf, hsuf, hmsuf, hpre⟩, h3⟩ := ih (p ++ [c]) pre g h
            rw [List.append_assoc] at hsuf h3
            simp only [List.length_append, List.length_cons, List.length_nil] at h1
            refine ⟨by omega, ⟨suf, hsuf, hmsuf, hpre⟩, ?_⟩
            intro a b hab hla hle hlt
            by_cases heq : a.length = p.length
            · obtain ⟨ha, hb⟩ := List.append_inj hab.symm heq
              rw [hb]
              exact hm
            · exact h3 a b hab hla
                (by simp only [List.length_append, List.length_cons, List.length_nil]; omega) hlt
      · have hs' : atLineStart p = false := by
          cases hval : atLineStart p
          · rfl
          · exact absurd hval hs
        rw [hs', findHeaderAux_cons_false] at h
        have hflag : decide (c = '\n') = atLineStart (p ++ [c]) := by
          by_cases hc : c = '\n'
          · subst hc; rw [atLineStart_append_newline]; simp
          · rw [atLineStart_append_other hc]; simpa using hc
        rw [hflag] at h
        obtain ⟨h1, ⟨suf, hsuf, hmsuf, hpre⟩, h3⟩ := ih (p ++ [c]) pre g h
        rw [List.append_assoc] at hsuf h3
        simp only [List.length_append, List.length_cons, List.length_nil] at h1
        refine ⟨by omega, ⟨suf, hsuf, hmsuf, hpre⟩, ?_⟩
        intro a b hab hla hle hlt
        by_cases heq : a.length = p.length
        · obtain ⟨ha, hb⟩ := List.append_inj hab.symm heq
          rw [ha] at hla
          rw [hla] at hs'
          exact absurd hs' (by simp)
        · exact h3 a b hab hla
            (by simp only [List.length_append, List.length_cons, List.length_nil]; omega) hlt

/-- Completeness of the failing search: when no match is found, the
anchored match fails at every line start at or after the current
position. -/
theorem findHeaderAux_none_correct :
    ∀ (r p : List Char),
      findHeaderAux p r (atLineStart p) = none →
      ∀ a b, p ++ r = a ++ b → atLineStart a = true → p.length ≤ a.length →
        matchHeaderAt b = none := by
  intro r
  induction r with
  | nil =>
      intro p _ a b hab hla hle
      have hblen : b.length = 0 := by
        have := congrArg List.length hab
        simp only [List.length_append, List.length_nil] at this
        omega
      rw [List.length_eq_zero.mp hblen]
      exact matchHeaderAt_nil
  | cons c cs ih =>
      intro p h a b hab hla hle
      by_cases hs : atLineStart p = true
      · rw [hs, findHeaderAux_cons_true] at h
        cases hm : matchHeaderAt (c :: cs) with
        | some g' => rw [hm] at h; exact absurd h (by simp)
        | none =>
            rw [hm] at h
            have hflag : decide (c = '\n') = atLineStart (p ++ [c]) := by
              by_cases hc : c = '\n'
              · subst hc; rw [atLineStart_append_newline]; simp
              · rw [atLineStart_append_other hc]; simpa using hc
            rw [hflag] at h
            by_cases heq : a.length = p.length
            · obtain ⟨ha, hb⟩ := List.append_inj hab.symm heq
              rw [hb]
              exact hm
            · exact ih (p ++ [c]) h a b (by rw [List.append_assoc]; exact hab) hla
                (by simp only [List.length_append, List.length_cons, List.length_nil]; omega)
      · have hs' : atLineStart p = false := by
          cases hval : atLineStart p
          · rfl
          · exact absurd hval hs
        rw [hs', findHeaderAux_cons_false] at h
        have hflag : decide (c = '\n') = atLineStart (p ++ [c]) := by
          by_cases hc : c = '\n'
          · subst hc; rw [atLineStart_append_newline]; simp
          · rw [atLineStart_append_other hc]; simpa using hc
        rw [hflag] at h
        by_cases heq : a.length = p.length
        · obtain ⟨ha, _⟩ := List.append_inj hab.symm heq
          rw [ha] at hla
          rw [hla] at hs'
          exact absurd hs' (by simp)
        · exact ih (p ++ [c]) h a b (by rw [List.append_assoc]; exact hab) hla
            (by simp only [List.length_append, List.length_cons, List.length_nil]; omega)

/-- `findHeader` soundness: the found split is a line start where the
anchored match yields the group, and every earlier line start fails. -/
theorem findHeader_some_correct {content pre g : List Char}
    (h : findHeader content = some (pre, g)) :
    (∃ suf, content = pre ++ suf ∧ matchHeaderAt suf = some g ∧ atLineStart pre = true)
    ∧ ∀ a b, content = a ++ b → atLineStart a = true → a.length < pre.length →
        matchHeaderAt b = none := by
  have h' : findHeaderAux [] content (atLineStart []) = some (pre, g) := by
    simpa [atLineStart] using h
  obtain ⟨_, ⟨suf, hsuf, hm, hpre⟩, h3⟩ := findHeaderAux_some_correct content [] pre g h'
  rw [List.nil_append] at hsuf
  exact ⟨⟨suf, hsuf, hm, hpre⟩,
    fun a b hab hla hlt => h3 a b (by rw [List.nil_append]; exact hab) hla (by simp) hlt⟩

/-- `findHeader` completeness: when the search fails, the anchored match
fails at every line start. -/
theorem findHeader_none_correct {content : List Char}
    (h : findHeader content = none) :
    ∀ a b, content = a ++ b → atLineStart a = true → matchHeaderAt b = none := by
  have h' : findHeaderAux [] content (atLineStart []) = none := by
    simpa [atLineStart] using h
  exact fun a b hab hla =>
    findHeaderAux_none_correct content [] h' a b (by rw [List.nil_append]; exact hab) hla
      (by simp)

/-! ## Lemmas about the section-extraction loop -/

/-- The accumulator only collects output: it factors out of the loop. -/
theorem extractSectionsLoop_acc (lines : List (List Char)) :
    ∀ cur cc ord acc, extractSectionsLoop lines cur cc ord acc
      = acc ++ extractSectionsLoop lines cur cc ord [] := by
  induction lines with
  | nil =>
      intro cur cc ord acc
      cases cur with
      | none => simp [extractSectionsLoop]
      | some t =>
          by_cases ht : t.isEmpty
          · simp [extractSectionsLoop, ht]
          · simp [extractSectionsLoop, ht]
  | cons line rest ih =>
      intro cur cc ord acc
      by_cases hl : isHeaderLine line
      · cases cur with
        | none => simp only [extractSectionsLoop, if_pos hl]; exact ih ..
        | some t =>
            by_cases ht : t.isEmpty
            · simp only [extractSectionsLoop, if_pos hl, ht, if_true]
              exact ih ..
            · simp only [extractSectionsLoop, if_pos hl, ht, if_false, Bool.false_eq_true]
              have h1 := ih (some (pyStrip (line.drop 2))) [] (ord + 1)
                (acc ++ [⟨t, pyStrip (joinLines cc), ord⟩])
              have h2 := ih (some (pyStrip (line.drop 2))) [] (ord + 1)
                ([] ++ [⟨t, pyStrip (joinLines cc), ord⟩])
              rw [h1, h2]
              simp
      · by_cases hc : truthy cur
        · simp only [extractSectionsLoop, if_neg hl, hc, if_true]
          exact ih ..
        · simp only [extractSectionsLoop, if_neg hl, hc, if_false, Bool.false_eq_true]
          exact ih ..

/-- With no current section, non-header lines are skipped outright. -/
theorem extractSectionsLoop_none_skip (lines : List (List Char))
    (h : ∀ l ∈ lines, isHeaderLine l = false) :
    ∀ cc ord acc, extractSectionsLoop lines none cc ord acc = acc := by
  induction lines with
  | nil => intro cc ord acc; simp [extractSectionsLoop]
  | cons line rest ih =>
      intro cc ord acc
      have hl : isHeaderLine line = false := h line (List.mem_cons_self _ _)
      simp only [extractSectionsLoop, hl, if_false, Bool.false_eq_true, truthy]
      exact ih (fun l hx => h l (List.mem_cons_of_mem _ hx)) ..

/-- The orders emitted from loop state `ord` are consecutive, starting at
`ord`. -/
theorem extractSectionsLoop_orders (lines : List (List Char)) :
    ∀ cur cc ord, ∃ n,
      (extractSectionsLoop lines cur cc ord []).map Section.order = List.range' ord n := by
  induction lines with
  | nil =>
      intro cur cc ord
      cases cur with
      | none => exact ⟨0, by simp [extractSectionsLoop]⟩
      | some t =>
          by_cases ht : t.isEmpty
          · exact ⟨0, by simp [extractSectionsLoop, ht]⟩
          · exact ⟨1, by simp [extractSectionsLoop, ht, List.range']⟩
  | cons line rest ih =>
      intro cur cc ord
      by_cases hl : isHeaderLine line
      · cases cur with
        | none =>
            obtain ⟨n, hn⟩ := ih (some (pyStrip (line.drop 2))) [] ord
            exact ⟨n, by simp only [extractSectionsLoop, if_pos hl]; exact hn⟩
        | some t =>
            by_cases ht : t.isEmpty
            · obtain ⟨n, hn⟩ := ih (some (pyStrip (line.drop 2))) [] ord
              exact ⟨n, by simp only [extractSectionsLoop, if_pos hl, ht, if_true]; exact hn⟩
            · obtain ⟨n, hn⟩ := ih (some (pyStrip (line.drop 2))) [] (ord + 1)
              refine ⟨n + 1, ?_⟩
              simp only [extractSectionsLoop, if_pos hl, ht, if_false, Bool.false_eq_true]
              rw [extractSectionsLoop_acc, List.map_append, hn]
              simp [List.range'_concat, List.range']
      · by_cases hc : truthy cur
        · obtain ⟨n, hn⟩ := ih cur (cc ++ [line]) ord
          exact ⟨n, by simp only [extractSectionsLoop, if_neg hl, hc, if_true]; exact hn⟩
        · obtain ⟨n, hn⟩ := ih cur cc ord
          exact ⟨n,
            by simp only [extractSectionsLoop, if_neg hl, hc, if_false, Bool.false_eq_true]
               exact hn⟩

/-- The stripped titles of the header lines, in order. -/
def headerTitles (lines : List (List Char)) : List (List Char) :=
  (lines.filter isHeaderLine).map (fun l => pyStrip (l.drop 2))

/-- The pending title of the loop state, as a list. -/
def curTitles : Option (List Char) → List (List Char)
  | none => []
  | some t => [t]

/-- When every header line has a non-empty stripped title (and the pending
title, if any, is non-empty), the emitted titles are the pending title
followed by the header titles in document order. -/
theorem extractSectionsLoop_titles (lines : List (List Char))
    (hH : ∀ l ∈ lines, isHeaderLine l = true → pyStrip (l.drop 2) ≠ []) :
    ∀ cur cc ord, (cur = none ∨ ∃ t, cur = some t ∧ t ≠ []) →
      (extractSectionsLoop lines cur cc ord []).map Section.title
        = curTitles cur ++ headerTitles lines := by
  induction lines with
  | nil =>
      intro cur cc ord hcur
      rcases hcur with h | ⟨t, rfl, ht⟩
      · subst h; simp [extractSectionsLoop, headerTitles, curTitles]
      · have : t.isEmpty = false := by
          cases t
          · exact absurd rfl ht
          · rfl
        simp [extractSectionsLoop, this, headerTitles, curTitles]
  | cons line rest ih =>
      intro cur cc ord hcur
      have hHrest : ∀ l ∈ rest, isHeaderLine l = true → pyStrip (l.drop 2) ≠ [] :=
        fun l hx => hH l (List.mem_cons_of_mem _ hx)
      by_cases hl : isHeaderLine line
      · have htitle : pyStrip (line.drop 2) ≠ [] := hH line (List.mem_cons_self _ _) hl
        have hnext : (some (pyStrip (line.drop 2)) : Option (List Char)) = none
            ∨ ∃ t, (some (pyStrip (line.drop 2)) : Option (List Char)) = some t ∧ t ≠ [] :=
          Or.inr ⟨pyStrip (line.drop 2), rfl, htitle⟩
        have hHT : headerTitles (line :: rest)
            = pyStrip (line.drop 2) :: headerTitles rest := by
          simp [headerTitles, List.filter_cons, hl]
        rcases hcur with h | ⟨t, rfl, ht⟩
        · subst h
          simp only [extractSectionsLoop, if_pos hl]
          rw [ih hHrest _ [] ord hnext, hHT]
          rfl
        · have hte : t.isEmpty = false := by
            cases t
            · exact absurd rfl ht
            · rfl
          simp only [extractSectionsLoop, if_pos hl, hte, if_false, Bool.false_eq_true]
          rw [extractSectionsLoop_acc, List.map_append, ih hHrest _ [] (ord + 1) hnext, hHT]
          simp [curTitles]
      · have hHT : headerTitles (line :: rest) = headerTitles rest := by
          simp [headerTitles, List.filter_cons, hl]
        by_cases hc : truthy cur
        · simp only [extractSectionsLoop, if_neg hl, hc, if_true]
          rw [ih hHrest _ _ ord hcur, hHT]
        · simp only [extractSectionsLoop, if_neg hl, hc, if_false, Bool.false_eq_true]
          rw [ih hHrest _ _ ord hcur, hHT]

/-- Every emitted section body is a stripped string. -/
theorem extractSectionsLoop_trimmed (lines : List (List Char)) :
    ∀ cur cc ord s, s ∈ extractSectionsLoop lines cur cc ord [] →
      s.content = pyStrip s.content := by
  induction lines with
  | nil =>
      intro cur cc ord s hs
      cases cur with
      | none => simp [extractSectionsLoop] at hs
      | some t =>
          by_cases ht : t.isEmpty
          · simp [extractSectionsLoop, ht] at hs
          · simp only [extractSectionsLoop, ht, if_false, Bool.false_eq_true,
              List.nil_append, List.mem_singleton] at hs
            subst hs
            exact (pyStrip_idem _).symm
  | cons line rest ih =>
      intro cur cc ord s hs
      by_cases hl : isHeaderLine line
      · cases cur with
        | none =>
            rw [extractSectionsLoop, if_pos hl] at hs
            exact ih _ _ _ s hs
        | some t =>
            by_cases ht : t.isEmpty
            · simp only [extractSectionsLoop, if_pos hl, ht, if_true] at hs
              exact ih _ _ _ s hs
            · simp only [extractSectionsLoop, if_pos hl, ht, if_false,
                Bool.false_eq_true] at hs
              rw [extractSectionsLoop_acc] at hs
              rcases List.mem_append.mp hs with h1 | h1
              · simp only [List.nil_append, List.mem_singleton] at h1
                subst h1
                exact (pyStrip_idem _).symm
              · exact ih _ _ _ s h1
      · by_cases hc : truthy cur
        · simp only [extractSectionsLoop, if_neg hl, hc, if_true] at hs
          exact ih _ _ _ s hs
        · simp only [extractSectionsLoop, if_neg hl, hc, if_false, Bool.false_eq_true] at hs
          exact ih _ _ _ s hs

/-! ## Round-trip infrastructure -/

/-- The `keepChar` characters contributed by one section: its title then
its body. -/
def sectionChars (s : Section) : List Char :=
  visibleChars s.title ++ visibleChars s.content

/-- The `keepChar` characters of a parse result: description first, then
each section's title and body in order. -/
def parseChars (r : ParseResult) : List Char :=
  visibleChars r.description ++ (r.sections.map sectionChars).flatten

theorem isHeaderLine_eq {l : List Char} (h : isHeaderLine l = true) :
    l = '#' :: ' ' :: l.drop 2 := by
  have ht : l.take 2 = ['#', ' '] := by simpa [isHeaderLine] using h
  conv_lhs => rw [← List.take_append_drop 2 l]
  rw [ht]
  rfl

theorem visibleChars_not_keep_cons {c : Char} (h : keepChar c = false) (l : List Char) :
    visibleChars (c :: l) = visibleChars l := by
  simp [visibleChars, List.filter_cons, h]

theorem visibleChars_headerLine {l : List Char} (h : isHeaderLine l = true) :
    visibleChars l = visibleChars (l.drop 2) := by
  conv_lhs => rw [isHeaderLine_eq h]
  rw [visibleChars_not_keep_cons (by decide), visibleChars_ws_cons (by decide)]

theorem pyStrip_ne_nil_iff {x : List Char} :
    pyStrip x ≠ [] ↔ List.dropWhile isWs x ≠ [] := by
  rw [pyStrip_eq_rdropWhile]
  constructor
  · intro h hc
    rw [hc] at h
    simp [List.rdropWhile] at h
  · intro h
    cases hc : List.dropWhile isWs x with
    | nil => exact absurd hc h
    | cons c t =>
        have hcw := dropWhile_head_false hc
        intro hnil
        rw [List.rdropWhile_eq_nil_iff] at hnil
        exact absurd (hnil c (List.mem_cons_self _ _)) (by simp [hcw])

theorem truthy_some_ne_nil {t : List Char} (h : t ≠ []) : truthy (some t) = true := by
  cases t with
  | nil => exact absurd rfl h
  | cons c l => rfl

theorem isEmpty_false_of_ne_nil {t : List Char} (h : t ≠ []) : t.isEmpty = false := by
  cases t with
  | nil => exact absurd rfl h
  | cons c l => rfl

/-- The characters collected by the loop from a live section state: the
pending title, the pending body lines, then everything in the remaining
lines (up to whitespace and `'#'` markers). -/
theorem extractSectionsLoop_visible (lines : List (List Char)) :
    ∀ t cc ord, t ≠ [] →
      (∀ l ∈ lines, isHeaderLine l = true → pyStrip (l.drop 2) ≠ []) →
      ((extractSectionsLoop lines (some t) cc ord []).map sectionChars).flatten
        = visibleChars t ++ (cc.map visibleChars).flatten
          ++ (lines.map visibleChars).flatten := by
  induction lines with
  | nil =>
      intro t cc ord ht _
      simp only [extractSectionsLoop, isEmpty_false_of_ne_nil ht, if_false,
        Bool.false_eq_true, List.nil_append, List.map_cons, List.map_nil]
      simp only [sectionChars, List.flatten, List.map_nil, List.append_nil]
      rw [visibleChars_pyStrip, visibleChars_joinLines]
  | cons line rest ih =>
      intro t cc ord ht hH
      have hHrest : ∀ l ∈ rest, isHeaderLine l = true → pyStrip (l.drop 2) ≠ [] :=
        fun l hx => hH l (List.mem_cons_of_mem _ hx)
      by_cases hl : isHeaderLine line
      · have htitle : pyStrip (line.drop 2) ≠ [] := hH line (List.mem_cons_self _ _) hl
        simp only [extractSectionsLoop, if_pos hl, isEmpty_false_of_ne_nil ht, if_false,
          Bool.false_eq_true]
        rw [extractSectionsLoop_acc, List.map_append, List.flatten_append,
          ih _ [] (ord + 1) htitle hHrest]
        have hline : visibleChars (pyStrip (line.drop 2)) = visibleChars line := by
          rw [visibleChars_pyStrip, ← visibleChars_headerLine hl]
        simp only [List.nil_append, List.map_cons, List.map_nil, List.flatten,
          sectionChars, List.append_nil]
        rw [visibleChars_pyStrip, visibleChars_joinLines, hline]
      · have hc : truthy (some t) = true := truthy_some_ne_nil ht
        simp only [extractSectionsLoop, if_neg hl, hc, if_true]
        rw [ih _ _ ord ht hHrest]
        simp [List.append_assoc]

/-- Skipping the initial non-header lines when no section is open leaves
the loop state untouched. -/
theorem extractSectionsLoop_skipPre (P : List (List Char))
    (h : ∀ l ∈ P, isHeaderLine l = false) (rest : List (List Char)) :
    ∀ cc ord acc, extractSectionsLoop (P ++ rest) none cc ord acc
      = extractSectionsLoop rest none cc ord acc := by
  induction P with
  | nil => intro cc ord acc; rfl
  | cons l P ih =>
      intro cc ord acc
      have hl : isHeaderLine l = false := h l (List.mem_cons_self _ _)
      rw [List.cons_append]
      show extractSectionsLoop (l :: (P ++ rest)) none cc ord acc = _
      simp only [extractSectionsLoop, hl, if_false, Bool.false_eq_true, truthy]
      exact ih (fun x hx => h x (List.mem_cons_of_mem _ hx)) ..

/-! ## Pipeline helper lemmas -/

theorem parse_sections (content : List Char) :
    (parse content).sections = extract_sections content := rfl

theorem parse_description (content : List Char) :
    (parse content).description = extract_description content := rfl

theorem extract_sections_eq (content : List Char) :
    extract_sections content = extractSectionsLoop (splitLines content) none [] 0 [] := rfl

theorem generate_lesson_ok {hash : List Char → Int} {s : Section} {output_dir : List Char}
    {opts : Options} {l : Lesson}
    (h : generate_lesson hash s output_dir opts = Except.ok l) :
    l.order = s.order ∧ l.subtitles = [] ∧ l.interactive_elements = [] ∧ l.duration = 0 := by
  unfold generate_lesson at h
  cases hga : generate_audio hash s.content opts with
  | error e =>
      rw [hga] at h
      exact absurd h (by simp)
  | ok p =>
      rw [hga] at h
      simp only [Except.ok.injEq] at h
      subst h
      exact ⟨rfl, rfl, rfl, rfl⟩

theorem generateLessons_map_order (hash : List Char → Int) :
    ∀ (secs : List Section) (output_dir : List Char) (opts : Options) (ls : List Lesson),
      generateLessons hash secs output_dir opts = Except.ok ls →
      ls.map Lesson.order = secs.map Section.order := by
  intro secs
  induction secs with
  | nil =>
      intro d o ls h
      simp only [generateLessons, Except.ok.injEq] at h
      subst h
      rfl
  | cons s rest ih =>
      intro d o ls h
      simp only [generateLessons] at h
      cases hga : generate_lesson hash s d o with
      | error e =>
          rw [hga] at h
          exact absurd h (by simp)
      | ok l =>
          rw [hga] at h
          cases hrest : generateLessons hash rest d o with
          | error e =>
              rw [hrest] at h
              exact absurd h (by simp)
          | ok ls' =>
              rw [hrest] at h
              simp only [Except.ok.injEq] at h
              subst h
              rw [List.map_cons, List.map_cons, (generate_lesson_ok hga).1, ih d o ls' hrest]

/-! ## Claim theorems -/

/-- C2: for every successfully generated course, the lesson sequence
carries exactly the source sections' `order` values in document order, and
these orders are strictly increasing, so the lessons are sorted by `order`
and each lesson's `order` equals that of the section it was built from. -/
theorem c2_lessons_sorted (hash : List Char → Int) (content stem output_dir : List Char)
    (opts : Options) (course : Course)
    (h : generate_course hash content stem output_dir opts = Except.ok course) :
    course.lessons.map Lesson.order = (parse content).sections.map Section.order
    ∧ List.Chain' (· < ·) (course.lessons.map Lesson.order) := by
  simp only [generate_course] at h
  cases hgl : generateLessons hash (parse content).sections output_dir opts with
  | error e =>
      rw [hgl] at h
      exact absurd h (by simp)
  | ok lessons =>
      rw [hgl] at h
      simp only [Except.ok.injEq] at h
      have hmap := generateLessons_map_order hash _ _ _ _ hgl
      have hcl : course.lessons = lessons := by rw [← h]
      refine ⟨by rw [hcl, hmap], ?_⟩
      rw [hcl, hmap]
      obtain ⟨n, hn⟩ := extractSectionsLoop_orders (splitLines content) none [] 0
      have hform : (parse content).sections.map Section.order = List.range' 0 n := by
        rw [parse_sections, extract_sections_eq]
        exact hn
      rw [hform]
      exact (List.pairwise_lt_range' ..).chain'

def c2Hash : List Char → Int := fun _ => 0

def c2Doc : List Char := "# A\nx\n# B\ny".toList

def c2Course : Course :=
  { id := "course_doc".toList
    title := "A".toList
    description := []
    lessons :=
      [{ id := "lesson_0".toList, title := "A".toList, content := "x".toList,
         video_url := some "/out/video_0.mp4".toList,
         audio_url := some "/tmp/bark_audio_0.wav".toList,
         subtitles := [], interactive_elements := [], duration := 0, order := 0 },
       { id := "lesson_0".toList, title := "B".toList, content := "y".toList,
         video_url := some "/out/video_0.mp4".toList,
         audio_url := some "/tmp/bark_audio_0.wav".toList,
         subtitles := [], interactive_elements := [], duration := 0, order := 1 }]
    metadata := ⟨"Unknown".toList, "en".toList, []⟩ }

/-- Witness for C2 at a concrete two-section document. -/
theorem c2_lessons_sorted_witness :
    c2Course.lessons.map Lesson.order = (parse c2Doc).sections.map Section.order
    ∧ List.Chain' (· < ·) (c2Course.lessons.map Lesson.order) :=
  c2_lessons_sorted c2Hash c2Doc "doc".toList "/out".toList [] c2Course rfl

/-- C6: the synthesis operation is total — it factors through the
backend chosen by `selectBackend`, a function of the options alone; a
recognized backend yields an audio path and the unrecognized-backend case
fails with the raised error. -/
theorem c6_synthesis_contract (hash : List Char → Int) (text : List Char) (opts : Options) :
    generate_audio hash text opts = runBackend hash text opts (selectBackend opts)
    ∧ (selectBackend opts ≠ Backend.invalid →
        ∃ p, generate_audio hash text opts = Except.ok p)
    ∧ (selectBackend opts = Backend.invalid →
        generate_audio hash text opts = Except.error (PyError.valueError
          ("Unknown TTS type: ".toList ++ optGet opts "tts_type".toList "bark".toList))) := by
  have key : generate_audio hash text opts = runBackend hash text opts (selectBackend opts) := by
    simp only [generate_audio, runBackend, selectBackend]
    by_cases h1 : optGet opts "tts_type".toList "bark".toList = "bark".toList
    · rw [if_pos h1, if_pos h1]
    · rw [if_neg h1, if_neg h1]
      by_cases h2 : optGet opts "tts_type".toList "bark".toList = "speecht5".toList
      · rw [if_pos h2, if_pos h2]
      · rw [if_neg h2, if_neg h2]
  refine ⟨key, ?_, ?_⟩
  · intro hne
    rw [key]
    cases hb : selectBackend opts with
    | bark => exact ⟨_, rfl⟩
    | speecht5 => exact ⟨_, rfl⟩
    | invalid => exact absurd hb hne
  · intro hinv
    rw [key, hinv]
    rfl

/-- Witness for C6: the factoring at a concrete call, and the error raised
for a concrete unrecognized backend. -/
theorem c6_synthesis_contract_witness :
    generate_audio (fun _ => 0) "hi".toList []
      = runBackend (fun _ => 0) "hi".toList [] (selectBackend [])
    ∧ generate_audio (fun _ => 0) "hi".toList [("tts_type".toList, "nope".toList)]
      = Except.error (PyError.valueError ("Unknown TTS type: ".toList ++ "nope".toList)) := by
  constructor
  · exact (c6_synthesis_contract (fun _ => 0) "hi".toList []).1
  · exact (c6_synthesis_contract (fun _ => 0) "hi".toList
      [("tts_type".toList, "nope".toList)]).2.2 (by decide)

/-- C8 (spec-modelled): updating a job that is already in a terminal
state fails with `InvalidTransitionError`; in particular no updated store
is ever returned, so the stored job is unchanged. -/
theorem c8_terminal_update_rejected (tr : Tracker) (jobId : List Char) (progress : Nat)
    (status : JobStatus) (job : Job)
    (hget : trackerGet tr jobId = some job)
    (hterm : job.status.isTerminal = true) :
    JobTracker.update tr jobId progress status = Except.error TrackerError.invalidTransition
    ∧ ∀ tr', JobTracker.update tr jobId progress status ≠ Except.ok tr' := by
  have hupd : JobTracker.update tr jobId progress status
      = Except.error TrackerError.invalidTransition := by
    unfold JobTracker.update
    simp [hget, hterm]
  exact ⟨hupd, fun tr' h => by rw [hupd] at h; cases h⟩

/-- Witness for C8 at a store holding one completed job. -/
theorem c8_terminal_update_rejected_witness :
    JobTracker.update
      [("j1".toList, ⟨"j1".toList, JobStatus.completed, 100, none, none⟩)]
      "j1".toList 50 JobStatus.running
      = Except.error TrackerError.invalidTransition :=
  (c8_terminal_update_rejected _ "j1".toList 50 JobStatus.running
    ⟨"j1".toList, JobStatus.completed, 100, none, none⟩ (by decide) (by decide)).1

/-- C9: every lesson produced by the pipeline carries an empty
subtitles list, an empty interactive-elements list, and duration 0. -/
theorem c9_lesson_placeholder_fields (hash : List Char → Int) (s : Section)
    (output_dir : List Char) (opts : Options) (l : Lesson)
    (h : generate_lesson hash s output_dir opts = Except.ok l) :
    l.subtitles = [] ∧ l.interactive_elements = [] ∧ l.duration = 0 :=
  ⟨(generate_lesson_ok h).2.1, (generate_lesson_ok h).2.2.1, (generate_lesson_ok h).2.2.2⟩

def c9Lesson : Lesson :=
  { id := "lesson_0".toList, title := "A".toList, content := "x".toList,
    video_url := some "/out/video_0.mp4".toList,
    audio_url := some "/tmp/bark_audio_0.wav".toList,
    subtitles := [], interactive_elements := [], duration := 0, order := 0 }

/-- Witness for C9 at a concrete section. -/
theorem c9_lesson_placeholder_fields_witness :
    c9Lesson.subtitles = [] ∧ c9Lesson.interactive_elements = [] ∧ c9Lesson.duration = 0 :=
  c9_lesson_placeholder_fields (fun _ => 0) ⟨"A".toList, "x".toList, 0⟩ "/out".toList []
    c9Lesson rfl

/-- C10: when the options carry no `"tts_type"` key, the Bark backend
is selected and the returned reference is the Bark-style path. -/
theorem c10_default_backend_bark (hash : List Char → Int) (text : List Char) (opts : Options)
    (h : lookupOpt opts "tts_type".toList = none) :
    generate_audio hash text opts = Except.ok (generate_bark_tts hash text)
    ∧ selectBackend opts = Backend.bark := by
  have hget : optGet opts "tts_type".toList "bark".toList = "bark".toList := by
    unfold optGet
    rw [h]
  constructor
  · simp only [generate_audio]
    rw [hget]
    rw [if_pos rfl]
  · simp only [selectBackend]
    rw [hget]
    rw [if_pos rfl]

/-- Witness for C10 with an empty options mapping. -/
theorem c10_default_backend_bark_witness :
    generate_audio (fun _ => 0) "hello".toList []
      = Except.ok (generate_bark_tts (fun _ => 0) "hello".toList)
    ∧ selectBackend [] = Backend.bark :=
  c10_default_backend_bark (fun _ => 0) "hello".toList [] rfl

/-- C1 counterexample: the document `"# \n# A"` contains two top-level
(`'# '`) header lines, but parsing yields only one section — the section
opened by a header whose stripped title is empty is silently dropped
(`if current_section:` is false for the empty string). -/
theorem c1_counterexample :
    ((splitLines ("# \n# A".toList)).countP isHeaderLine) = 2
    ∧ (extract_sections ("# \n# A".toList)).length = 1 := by decide

/-- C1 (amended): for every document whose top-level header lines all
have a non-empty stripped title, parsing returns exactly one section per
header line, titled by the stripped header texts in document order, with
dense zero-based `order` fields and bodies that are trimmed of leading and
trailing whitespace. -/
theorem c1_sections_dense (content : List Char)
    (h : ∀ l ∈ splitLines content, isHeaderLine l = true → pyStrip (l.drop 2) ≠ []) :
    (extract_sections content).length = (splitLines content).countP isHeaderLine
    ∧ (extract_sections content).map Section.title = headerTitles (splitLines content)
    ∧ (extract_sections content).map Section.order
        = List.range (extract_sections content).length
    ∧ ∀ s ∈ extract_sections content, s.content = pyStrip s.content := by
  have htitles : (extract_sections content).map Section.title
      = headerTitles (splitLines content) := by
    rw [extract_sections_eq]
    have := extractSectionsLoop_titles (splitLines content) h none [] 0 (Or.inl rfl)
    rw [this]
    rfl
  have hlen : (extract_sections content).length
      = (splitLines content).countP isHeaderLine := by
    have h1 : (extract_sections content).length
        = ((extract_sections content).map Section.title).length := by
      rw [List.length_map]
    rw [h1, htitles, headerTitles, List.length_map, List.countP_eq_length_filter]
  refine ⟨hlen, htitles, ?_, ?_⟩
  · obtain ⟨n, hn⟩ := extractSectionsLoop_orders (splitLines content) none [] 0
    have horders : (extract_sections content).map Section.order = List.range' 0 n := by
      rw [extract_sections_eq]
      exact hn
    have hn' : n = (extract_sections content).length := by
      have := congrArg List.length horders
      simp only [List.length_map, List.length_range'] at this
      omega
    rw [horders, hn', List.range_eq_range']
  · intro s hs
    rw [extract_sections_eq] at hs
    exact extractSectionsLoop_trimmed (splitLines content) none [] 0 s hs

/-- Witness for C1 on a concrete two-header document. -/
theorem c1_sections_dense_witness :
    (extract_sections ("intro\n# A\nbody\n# B".toList)).length
        = (splitLines ("intro\n# A\nbody\n# B".toList)).countP isHeaderLine
    ∧ (extract_sections ("intro\n# A\nbody\n# B".toList)).map Section.title
        = headerTitles (splitLines ("intro\n# A\nbody\n# B".toList))
    ∧ (extract_sections ("intro\n# A\nbody\n# B".toList)).map Section.order
        = List.range (extract_sections ("intro\n# A\nbody\n# B".toList)).length
    ∧ ∀ s ∈ extract_sections ("intro\n# A\nbody\n# B".toList),
        s.content = pyStrip s.content :=
  c1_sections_dense ("intro\n# A\nbody\n# B".toList) (by decide)

/-- C3 counterexample: `"Hello world"` has no top-level headers (and no
headers at all), so the claim demands a description equal to the full
trimmed text and non-empty; the code returns the empty description. -/
theorem c3_counterexample :
    (∀ l ∈ splitLines ("Hello world".toList), isHeaderLine l = false)
    ∧ extract_sections ("Hello world".toList) = []
    ∧ pyStrip ("Hello world".toList) ≠ []
    ∧ extract_description ("Hello world".toList) = [] := by decide

/-- C3 (amended): a document with no top-level header lines parses to
zero sections; its description is empty when the header pattern matches
nowhere, and otherwise is the trimmed prefix of the document strictly
before the leftmost (any-level) header match — not, in general, the full
trimmed text, and possibly empty. -/
theorem c3_no_header_sections (content : List Char)
    (h : ∀ l ∈ splitLines content, isHeaderLine l = false) :
    extract_sections content = []
    ∧ (findHeader content = none → extract_description content = [])
    ∧ ∀ pre g, findHeader content = some (pre, g) →
        extract_description content = pyStrip pre
        ∧ ∃ suf, content = pre ++ suf ∧ matchHeaderAt suf = some g
          ∧ atLineStart pre = true := by
  refine ⟨?_, ?_, ?_⟩
  · rw [extract_sections_eq]
    exact extractSectionsLoop_none_skip (splitLines content) h [] 0 []
  · intro hf
    unfold extract_description
    rw [hf]
  · intro pre g hf
    refine ⟨?_, (findHeader_some_correct hf).1⟩
    unfold extract_description
    rw [hf]

/-- Witness for C3 on a document whose only header is second-level. -/
theorem c3_no_header_sections_witness :
    extract_sections ("Hello\n## Sub\nWorld".toList) = []
    ∧ extract_description ("Hello\n## Sub\nWorld".toList) = pyStrip ("Hello\n".toList) := by
  have h := c3_no_header_sections ("Hello\n## Sub\nWorld".toList) (by decide)
  exact ⟨h.1, (h.2.2 ("Hello\n".toList) ("Sub".toList) (by decide)).1⟩

/-- C4 counterexample: in `"## Sub\n# Main"` the only top-level header
is `"# Main"`, yet the parsed title is `"Sub"`, taken from the earlier
second-level header — the title regex `^#+\s+(.+)$` matches headers of any
level, not only top-level ones. -/
theorem c4_counterexample :
    ((splitLines ("## Sub\n# Main".toList)).filter isHeaderLine).map
        (fun l => pyStrip (l.drop 2)) = ["Main".toList]
    ∧ parseTitle ("## Sub\n# Main".toList) = "Sub".toList
    ∧ ("Sub".toList : List Char) ≠ "Main".toList := by decide

/-- C4 (amended): the parsed title is the stripped capture group of
the leftmost `^#+\s+(.+)$` match — the first header of *any* level; every
line start strictly before the match position fails the anchored match.
When the pattern matches nowhere (no header of any level), the title is
the fixed default `"Untitled Course"`. -/
theorem c4_title_first_any_level (content : List Char) :
    (∀ pre g, findHeader content = some (pre, g) →
      parseTitle content = pyStrip g
      ∧ (∃ suf, content = pre ++ suf ∧ matchHeaderAt suf = some g ∧ atLineStart pre = true)
      ∧ ∀ a b, content = a ++ b → atLineStart a = true → a.length < pre.length →
          matchHeaderAt b = none)
    ∧ (findHeader content = none →
      parseTitle content = defaultTitle
      ∧ ∀ a b, content = a ++ b → atLineStart a = true → matchHeaderAt b = none) := by
  constructor
  · intro pre g hf
    refine ⟨?_, (findHeader_some_correct hf).1, (findHeader_some_correct hf).2⟩
    unfold parseTitle
    rw [hf]
  · intro hf
    refine ⟨?_, findHeader_none_correct hf⟩
    unfold parseTitle
    rw [hf]

/-- Witness for C4: the title of `"## Sub\nx"` is the stripped group of
the level-2 header match. -/
theorem c4_title_first_any_level_witness :
    parseTitle ("## Sub\nx".toList) = pyStrip ("Sub".toList) :=
  ((c4_title_first_any_level ("## Sub\nx".toList)).1 [] ("Sub".toList) (by decide)).1

def c5Doc : List Char := "# Intro\nHello\n# Lesson A\nBody A\n# Lesson B\nBody B".toList

/-- C5 counterexample: on the spec's concrete input the first
section's body is `"Hello"`, not the empty string the claim demands (the
line `"Hello"` belongs to the `Intro` section; it is not diverted into the
description). -/
theorem c5_counterexample :
    (extract_sections c5Doc).map Section.content
      ≠ [[], "Body A".toList, "Body B".toList] := by decide

/-- C5 (amended): the concrete input yields exactly three sections
titled `Intro`, `Lesson A`, `Lesson B` with bodies `"Hello"`, `"Body A"`,
`"Body B"` and orders 0, 1, 2. -/
theorem c5_concrete_sections :
    (extract_sections c5Doc).map (fun s => (s.title, s.content, s.order))
      = [("Intro".toList, "Hello".toList, 0),
         ("Lesson A".toList, "Body A".toList, 1),
         ("Lesson B".toList, "Body B".toList, 2)] := by decide

def c7Doc : List Char := "a\n## b\nz\n# A\nB".toList

/-- C7 counterexample: in `"a\n## b\nz\n# A\nB"`, the description stops
at the level-2 header `"## b"` and sections only start at the first
top-level header `"# A"`, so the text `b` and `z` is lost: concatenating
description, titles and bodies does not reconstruct the document even up
to whitespace normalization. -/
theorem c7_counterexample :
    parseChars (parse c7Doc) ≠ visibleChars c7Doc := by decide

/-- Where `header_pattern.search` lands on a document that decomposes into
`'#'`-free lines `P` followed by a top-level header line `hd` and further
lines `R`: the leftmost match starts exactly at `hd`, and the capture
group is `hd`'s title text with its leading whitespace removed. -/
theorem findHeader_of_decomposition (P : List (List Char)) (hd : List Char)
    (R : List (List Char))
    (hP : ∀ l ∈ P, '\n' ∉ l ∧ '#' ∉ l)
    (hhd : isHeaderLine hd = true)
    (hnl : '\n' ∉ hd)
    (hne : pyStrip (hd.drop 2) ≠ []) :
    findHeader (linesPre P ++ joinLines (hd :: R))
      = some (linesPre P, List.dropWhile isWs (hd.drop 2)) := by
  have hhd_eq : hd = '#' :: ' ' :: hd.drop 2 := isHeaderLine_eq hhd
  have hunl : '\n' ∉ hd.drop 2 := by
    intro hmem
    refine hnl ?_
    rw [hhd_eq]
    exact List.mem_cons_of_mem _ (List.mem_cons_of_mem _ hmem)
  have hudw : List.dropWhile isWs (hd.drop 2) ≠ [] := pyStrip_ne_nil_iff.mp hne
  obtain ⟨rest', hjoin, hrest'⟩ : ∃ rest', joinLines (hd :: R) = hd ++ rest'
      ∧ (rest' = [] ∨ ∃ rr, rest' = '\n' :: rr) := by
    cases R with
    | nil => exact ⟨[], by simp [joinLines], Or.inl rfl⟩
    | cons r R' => exact ⟨'\n' :: joinLines (r :: R'), by rw [joinLines], Or.inr ⟨_, rfl⟩⟩
  unfold findHeader
  rw [findHeaderAux_linesPre P hP [] (joinLines (hd :: R)), hjoin]
  conv_lhs => rw [hhd_eq]
  show findHeaderAux ([] ++ linesPre P) ('#' :: (' ' :: (hd.drop 2 ++ rest'))) true = _
  rw [findHeaderAux_cons_true,
    matchHeaderAt_headerLine (hd.drop 2) rest' hunl hudw hrest']
  simp

/-- The `keepChar` characters contributed by the sections of a line list
that starts at a top-level header line `hd` followed by lines `R`
(all header titles non-empty): `hd`'s title text, then everything in `R`
in order. -/
theorem sectionChars_of_decomposition (hd : List Char) (R : List (List Char))
    (hhd : isHeaderLine hd = true)
    (hne : pyStrip (hd.drop 2) ≠ [])
    (hR : ∀ l ∈ R, isHeaderLine l = true → pyStrip (l.drop 2) ≠ []) :
    ((extractSectionsLoop (hd :: R) none [] 0 []).map sectionChars).flatten
      = visibleChars (hd.drop 2) ++ (R.map visibleChars).flatten := by
  have hstep : extractSectionsLoop (hd :: R) none [] 0 []
      = extractSectionsLoop R (some (pyStrip (hd.drop 2))) [] 0 [] := by
    simp only [extractSectionsLoop, hhd, if_true]
  rw [hstep, extractSectionsLoop_visible R (pyStrip (hd.drop 2)) [] 0 hne hR,
    visibleChars_pyStrip]
  simp

/-- C7 (amended): the concatenation `description ++ titles ++ bodies`
preserves exactly the non-whitespace, non-`'#'` characters of the document
in order, provided the document has at least one top-level header line, no
line before the first top-level header line contains a `'#'`, and every
top-level header has a non-empty stripped title.  (The counterexample
shows the restriction is needed: text between an any-level header and the
first top-level header line is dropped.) -/
theorem c7_roundtrip (content : List Char)
    (h1 : (splitLines content).any isHeaderLine = true)
    (h2 : ∀ l ∈ (splitLines content).takeWhile (fun l => !isHeaderLine l), '#' ∉ l)
    (h3 : ∀ l ∈ splitLines content, isHeaderLine l = true → pyStrip (l.drop 2) ≠ []) :
    parseChars (parse content) = visibleChars content := by
  obtain ⟨hd, R, hDR⟩ : ∃ hd R,
      (splitLines content).dropWhile (fun l => !isHeaderLine l) = hd :: R := by
    cases hD : (splitLines content).dropWhile (fun l => !isHeaderLine l) with
    | nil =>
        obtain ⟨l, hmem, hhl⟩ := List.any_eq_true.mp h1
        rw [List.dropWhile_eq_nil_iff] at hD
        have := hD l hmem
        rw [hhl] at this
        simp at this
    | cons x xs => exact ⟨x, xs, rfl⟩
  have hsplit : splitLines content
      = (splitLines content).takeWhile (fun l => !isHeaderLine l) ++ hd :: R := by
    rw [← hDR]
    exact (List.takeWhile_append_dropWhile ..).symm
  set P := (splitLines content).takeWhile (fun l => !isHeaderLine l) with hPdef
  have hhd : isHeaderLine hd = true := by
    have := dropWhile_head_false hDR
    simpa using this
  have hhdmem : hd ∈ splitLines content := by
    rw [hsplit]
    exact List.mem_append_right _ (List.mem_cons_self _ _)
  have hPmem : ∀ l ∈ P, l ∈ splitLines content := by
    intro l hx
    rw [hsplit]
    exact List.mem_append_left _ hx
  have hPprops : ∀ l ∈ P, '\n' ∉ l ∧ '#' ∉ l := by
    intro l hx
    exact ⟨splitLines_no_newline content l (hPmem l hx), h2 l hx⟩
  have hPnh : ∀ l ∈ P, isHeaderLine l = false := by
    intro l hx
    have := List.mem_takeWhile_imp hx
    simpa using this
  have hcontent : content = linesPre P ++ joinLines (hd :: R) := by
    conv_lhs => rw [← joinLines_splitLines content, hsplit]
    exact joinLines_append P (hd :: R) (by simp)
  have hfind : findHeader content
      = some (linesPre P, List.dropWhile isWs (hd.drop 2)) := by
    rw [hcontent]
    exact findHeader_of_decomposition P hd R hPprops hhd
      (splitLines_no_newline content hd hhdmem) (h3 hd hhdmem hhd)
  have hdesc : extract_description content = pyStrip (linesPre P) := by
    unfold extract_description
    rw [hfind]
  have hRmem : ∀ l ∈ R, l ∈ splitLines content := by
    intro l hx
    rw [hsplit]
    exact List.mem_append_right _ (List.mem_cons_of_mem _ hx)
  have hsecvis : ((extract_sections content).map sectionChars).flatten
      = visibleChars (hd.drop 2) ++ (R.map visibleChars).flatten := by
    rw [extract_sections_eq, hsplit, extractSectionsLoop_skipPre P hPnh]
    exact sectionChars_of_decomposition hd R hhd (h3 hd hhdmem hhd)
      (fun l hx h => h3 l (hRmem l hx) h)
  have hvis_content : visibleChars content
      = (P.map visibleChars).flatten ++ (visibleChars (hd.drop 2)
        ++ (R.map visibleChars).flatten) := by
    conv_lhs => rw [← joinLines_splitLines content, hsplit]
    rw [visibleChars_joinLines, List.map_append, List.flatten_append, List.map_cons,
      List.flatten_cons, ← visibleChars_headerLine hhd]
  calc parseChars (parse content)
      = visibleChars (extract_description content)
        ++ ((extract_sections content).map sectionChars).flatten := rfl
    _ = visibleChars (pyStrip (linesPre P))
        ++ (visibleChars (hd.drop 2) ++ (R.map visibleChars).flatten) := by
        rw [hdesc, hsecvis]
    _ = (P.map visibleChars).flatten ++ (visibleChars (hd.drop 2)
        ++ (R.map visibleChars).flatten) := by
        rw [visibleChars_pyStrip, visibleChars_linesPre]
    _ = visibleChars content := hvis_content.symm

/-- Witness for C7 on a two-section document with introductory text. -/
theorem c7_roundtrip_witness :
    parseChars (parse ("intro\n# One\nbody one\n# Two\nbody two".toList))
      = visibleChars ("intro\n# One\nbody one\n# Two\nbody two".toList) :=
  c7_roundtrip ("intro\n# One\nbody one\n# Two\nbody two".toList)
    (by decide) (by decide) (by decide)

end CoursesCreator
